import Mathlib

/-!
Verification of the js-parser repository (src/src/main.rs): a shallow
embedding of its tokenizer, shunting-yard expression parser, statement
parser and recursive evaluator, together with theorems settling the
specification's claims about them.

Conventions of the embedding:
* Rust `Vec` stacks become Lean lists whose head is the stack top.
* Rust panics become `Except` errors (`ParseErr` for the parsers'
  `panic!` calls, `EvalErr` for the evaluator's aborts).
* Rust `i64` values are modelled as `Int`; the one place where the i64
  *range* changes control flow — the `num.parse::<i64>().is_ok()` guard in
  `parse_expression`, which fails for digit runs above `i64::MAX` and then
  falls through to the `Expr::Variable` branch — is modelled explicitly
  with the bound `maxI64`.  Rust truncating division `/` is `Int.tdiv`.
* The regex character classes `\d`, `\w`, `\s` are modelled on ASCII
  characters (the repository's inputs are ASCII).
-/

deriving instance DecidableEq for Except

namespace JsParser

/-- Lexical tokens of `parse_expression`.  The Rust code keeps tokens as
string slices; the regex `(\d+|\+|\-|\*|\/|\(|\))` can only produce digit
runs and the six single characters, but the `match` in `parse_expression`
also has a fall-through arm for any other string, so the token type keeps
an `ident` constructor for word-run tokens (producible only by the
spec-described tokenizer, never by the code's regex). -/
inductive Tok where
  | num (s : List Char)
  | ident (s : List Char)
  | plus
  | minus
  | star
  | slash
  | lparen
  | rparen
deriving DecidableEq, Repr

/-- The six single-character tokens of the regex alternation. -/
def isOpChar (c : Char) : Bool :=
  c = '+' || c = '-' || c = '*' || c = '/' || c = '(' || c = ')'

/-- Token for a matched single operator/parenthesis character. -/
def opTok (c : Char) : Tok :=
  if c = '+' then .plus
  else if c = '-' then .minus
  else if c = '*' then .star
  else if c = '/' then .slash
  else if c = '(' then .lparen
  else .rparen

/-- The tokenizer scan with the regex `(\d+|\+|\-|\*|\/|\(|\))` (line 73 of
main.rs), written with an explicit fuel so that it is structurally
recursive (and hence evaluates inside the kernel): each step consumes at
least one character, so any fuel of at least the input length computes the
full scan.  A step matches a maximal digit run, or a single
operator/parenthesis character; every other character (whitespace, letters,
anything else) is skipped without error. -/
def tokenizeFuel : Nat → List Char → List Tok
  | 0, _ => []
  | _ + 1, [] => []
  | fuel + 1, c :: cs =>
    if c.isDigit then
      Tok.num (c :: cs.takeWhile Char.isDigit) :: tokenizeFuel fuel (cs.dropWhile Char.isDigit)
    else if isOpChar c then
      opTok c :: tokenizeFuel fuel cs
    else
      tokenizeFuel fuel cs

/-- The tokenizer of `parse_expression`: left-to-right regex scan.  Note
the code's regex has no word-character alternative, so identifiers are
dropped. -/
def tokenize (l : List Char) : List Tok := tokenizeFuel l.length l

/-- ASCII word character, modelling the regex class `\w`. -/
def isWordChar (c : Char) : Bool := c.isAlphanum || c = '_'

/-- Modelled from the spec: the tokenizer CONTRACT of spec §4.1, which in
addition to digit runs and single operator characters also matches "a run
of word characters (letters/digits/underscore) not starting with a digit".
This alternative is missing from the code's regex; the definition exists to
state how the code diverges from it. -/
def tokenizeSpecFuel : Nat → List Char → List Tok
  | 0, _ => []
  | _ + 1, [] => []
  | fuel + 1, c :: cs =>
    if c.isDigit then
      Tok.num (c :: cs.takeWhile Char.isDigit) :: tokenizeSpecFuel fuel (cs.dropWhile Char.isDigit)
    else if isOpChar c then
      opTok c :: tokenizeSpecFuel fuel cs
    else if isWordChar c then
      Tok.ident (c :: cs.takeWhile isWordChar) :: tokenizeSpecFuel fuel (cs.dropWhile isWordChar)
    else
      tokenizeSpecFuel fuel cs

/-- Modelled from the spec: the spec §4.1 tokenizer on a character list. -/
def tokenize_spec (l : List Char) : List Tok := tokenizeSpecFuel l.length l

/-- The expression AST (`enum Expr` in main.rs). -/
inductive Expr where
  | Number (n : Int)
  | Variable (name : String)
  | Add (l r : Expr)
  | Sub (l r : Expr)
  | Div (l r : Expr)
  | Mul (l r : Expr)
deriving DecidableEq, Repr

/-- The distinct `panic!` exits of the parsing code, as error values. -/
inductive ParseErr where
  | mismatchedParens
  | invalidExpr
  | unknownOperator
  | intUnwrapPanic
deriving DecidableEq, Repr

/-- Operator precedence (`fn precedence`): `+`,`-` → 1; `*`,`/` → 2;
anything else → 0. -/
def precedence : Tok → Nat
  | .minus | .plus => 1
  | .slash | .star => 2
  | _ => 0

/-- Reduction step (`fn apply_op`): pop two operands (right on top), push
the binary node.  Fewer than two operands is "Invalid expression"; a
non-operator token reaching this point is "Unknown operator". -/
def apply_op (op : Tok) (stack : List Expr) : Except ParseErr (List Expr) :=
  match stack with
  | right :: left :: rest =>
    match op with
    | .plus => .ok (.Add left right :: rest)
    | .minus => .ok (.Sub left right :: rest)
    | .star => .ok (.Mul left right :: rest)
    | .slash => .ok (.Div left right :: rest)
    | _ => .error .unknownOperator
  | _ => .error .invalidExpr

/-- The while-loop run on an incoming operator of precedence `k`: pop and
reduce while the operator stack's top is not `(` and has precedence ≥ `k`. -/
def popGE (k : Nat) : List Expr → List Tok → Except ParseErr (List Expr × List Tok)
  | out, [] => .ok (out, [])
  | out, t :: ops =>
    if t ≠ Tok.lparen ∧ precedence t ≥ k then
      match apply_op t out with
      | .error e => .error e
      | .ok out' => popGE k out' ops
    else
      .ok (out, t :: ops)

/-- The while-loop run on a close-paren: pop and reduce until the operator
stack is empty or its top is `(`. -/
def popToParen : List Expr → List Tok → Except ParseErr (List Expr × List Tok)
  | out, [] => .ok (out, [])
  | out, t :: ops =>
    if t = Tok.lparen then
      .ok (out, t :: ops)
    else
      match apply_op t out with
      | .error e => .error e
      | .ok out' => popToParen out' ops

/-- Value of a digit run (what `parse::<i64>` computes on an unsigned
decimal string). -/
def digitsVal (s : List Char) : Nat :=
  s.foldl (fun a c => a * 10 + (c.toNat - 48)) 0

/-- Largest `i64` value, `2^63 - 1`. -/
def maxI64 : Nat := 9223372036854775807

/-- Result of `token.parse::<i64>()` for the token strings the tokenizers
can produce (digit runs and word runs, which never carry a sign): success
exactly for a nonempty all-digit string whose value fits in `i64`. -/
def i64OfToken (s : List Char) : Option Int :=
  if s ≠ [] ∧ s.all Char.isDigit = true ∧ digitsVal s ≤ maxI64 then
    some ((digitsVal s : Int))
  else
    none

/-- ASCII whitespace, modelling `\s` and `str::trim`. -/
def wsChar (c : Char) : Bool := c = ' ' || c = '\t' || c = '\n' || c = '\r'

/-- Model of `str::trim`. -/
def trimWs (s : List Char) : List Char :=
  ((s.dropWhile wsChar).reverse.dropWhile wsChar).reverse

/-- The operand arms of `parse_expression`'s token match: a token that
parses as `i64` pushes `Expr::Number`; one whose trimmed text parses as
`i64` likewise; anything else pushes `Expr::Variable` with the token text. -/
def operandExpr (s : List Char) : Expr :=
  match i64OfToken s with
  | some n => .Number n
  | none =>
    match i64OfToken (trimWs s) with
    | some n => .Number n
    | none => .Variable (String.mk s)

/-- One iteration of `parse_expression`'s token loop, acting on the pair
(output stack, operator stack). -/
def step (st : List Expr × List Tok) (t : Tok) : Except ParseErr (List Expr × List Tok) :=
  match t with
  | .plus | .minus | .star | .slash =>
    match popGE (precedence t) st.1 st.2 with
    | .error e => .error e
    | .ok (out, ops) => .ok (out, t :: ops)
  | .lparen => .ok (st.1, Tok.lparen :: st.2)
  | .rparen =>
    match popToParen st.1 st.2 with
    | .error e => .error e
    | .ok (out, ops) =>
      match ops with
      | .lparen :: rest => .ok (out, rest)
      | _ => .error .mismatchedParens
  | .num s => .ok (operandExpr s :: st.1, st.2)
  | .ident s => .ok (operandExpr s :: st.1, st.2)

/-- The token loop of `parse_expression`. -/
def runToks (st : List Expr × List Tok) : List Tok → Except ParseErr (List Expr × List Tok)
  | [] => .ok st
  | t :: ts =>
    match step st t with
    | .error e => .error e
    | .ok st' => runToks st' ts

/-- The final drain of the operator stack: a leftover `(` is "Mismatched
parentheses"; operators are reduced with `apply_op`. -/
def drain : List Expr → List Tok → Except ParseErr (List Expr)
  | out, [] => .ok out
  | out, t :: ops =>
    if t = Tok.lparen then
      .error .mismatchedParens
    else
      match apply_op t out with
      | .error e => .error e
      | .ok out' => drain out' ops

/-- `parse_expression` from the token list on: run the loop, drain the
operator stack, and require exactly one residual expression. -/
def parseToks (ts : List Tok) : Except ParseErr Expr :=
  match runToks ([], []) ts with
  | .error e => .error e
  | .ok (out, ops) =>
    match drain out ops with
    | .error e => .error e
    | .ok [e] => .ok e
    | .ok _ => .error .invalidExpr

/-- `fn parse_expression` on a line of text. -/
def parse_expression (input : String) : Except ParseErr Expr :=
  parseToks (tokenize input.toList)

/-- The evaluator's abort conditions. -/
inductive EvalErr where
  | undefinedVariable
  | divisionByZero
deriving DecidableEq, Repr

/-- `fn evaluate_expr`: recursively reduce the tree against the variable
mapping (modelled as an association list, most recent binding first).
`Variable` lookup failure is the `expect("Undefined Variable;")` abort;
a zero right operand of `Div` is the division-by-zero abort; division is
Rust's truncating `i64` division, `Int.tdiv`. -/
def evaluate_expr (e : Expr) (vars : List (String × Int)) : Except EvalErr Int :=
  match e with
  | .Number n => .ok n
  | .Variable name =>
    match vars.lookup name with
    | some v => .ok v
    | none => .error .undefinedVariable
  | .Add l r =>
    match evaluate_expr l vars with
    | .error er => .error er
    | .ok a =>
      match evaluate_expr r vars with
      | .error er => .error er
      | .ok b => .ok (a + b)
  | .Sub l r =>
    match evaluate_expr l vars with
    | .error er => .error er
    | .ok a =>
      match evaluate_expr r vars with
      | .error er => .error er
      | .ok b => .ok (a - b)
  | .Mul l r =>
    match evaluate_expr l vars with
    | .error er => .error er
    | .ok a =>
      match evaluate_expr r vars with
      | .error er => .error er
      | .ok b => .ok (a * b)
  | .Div l r =>
    match evaluate_expr l vars with
    | .error er => .error er
    | .ok a =>
      match evaluate_expr r vars with
      | .error er => .error er
      | .ok b => if b = 0 then .error .divisionByZero else .ok (Int.tdiv a b)

/-- `struct VariableDeclaration`. -/
structure VariableDeclaration where
  name : String
  value : Expr
deriving DecidableEq, Repr

/-- `enum Stmt`. -/
inductive Stmt where
  | Assignment (name : String) (e : Expr)
  | Declaration (d : VariableDeclaration)
  | Expression (e : Expr)
deriving DecidableEq, Repr

/-- `struct Program`: the variable mapping (a `HashMap` in Rust, modelled
as an association list where an insert prepends and lookups take the most
recent binding; the Rust field name `variables` is a reserved word in Lean,
hence `vars`) and the ordered statement list. -/
structure Program where
  vars : List (String × Int)
  statements : List Stmt
deriving DecidableEq, Repr

/-- Match of the regex `var\s+(\w+)\s*=\s*(\d+)` anchored at the start of
`l`, returning the two capture groups.  The character classes involved are
pairwise disjoint at every boundary of the pattern, so maximal munch needs
no backtracking. -/
def declAt (l : List Char) : Option (List Char × List Char) :=
  match l with
  | 'v' :: 'a' :: 'r' :: rest =>
    if rest.takeWhile wsChar = [] then none
    else
      let r1 := rest.dropWhile wsChar
      let name := r1.takeWhile isWordChar
      if name = [] then none
      else
        match (r1.dropWhile isWordChar).dropWhile wsChar with
        | '=' :: r3 =>
          let ds := (r3.dropWhile wsChar).takeWhile Char.isDigit
          if ds = [] then none else some (name, ds)
        | _ => none
  | _ => none

/-- `re_decl.captures(line)`: leftmost match of the declaration regex. -/
def findDecl : List Char → Option (List Char × List Char)
  | [] => none
  | c :: cs =>
    match declAt (c :: cs) with
    | some r => some r
    | none => findDecl cs

/-- Characters of the class `[\w\s\+\-\*/\(\)]` in `re_stmt`. -/
def classChar (c : Char) : Bool :=
  isWordChar c || wsChar c || c = '+' || c = '-' || c = '*' || c = '/' || c = '(' || c = ')'

/-- Match of the regex `(\w+)\s*=\s*(\d+|[\w\s\+\-\*/\(\)])` anchored at
the start of `l`.  Note the second capture group is a digit run OR A
SINGLE character of the class — not the whole right-hand side.  The only
backtracking the pattern can need is the `\s*` after `=` giving one
whitespace character back to the single-character alternative when nothing
else follows; `fallback` covers that case. -/
def stmtAt (l : List Char) : Option (List Char × List Char) :=
  let name := l.takeWhile isWordChar
  if name = [] then none
  else
    match (l.dropWhile isWordChar).dropWhile wsChar with
    | '=' :: r2 =>
      let ws := r2.takeWhile wsChar
      let fallback :=
        match ws.getLast? with
        | some w => some (name, [w])
        | none => none
      match r2.dropWhile wsChar with
      | c :: crest =>
        if c.isDigit then some (name, c :: crest.takeWhile Char.isDigit)
        else if classChar c then some (name, [c])
        else fallback
      | [] => fallback
    | _ => none

/-- `re_stmt.captures(line)`: leftmost match of the assignment regex. -/
def findStmt : List Char → Option (List Char × List Char)
  | [] => none
  | c :: cs =>
    match stmtAt (c :: cs) with
    | some r => some r
    | none => findStmt cs

/-- One iteration of `parse_program`'s line loop: declaration first (the
captured literal goes through `parse::<i64>().unwrap()`, whose overflow
panic is `intUnwrapPanic`, and is inserted into the variable mapping at
parse time), then assignment (the second capture is handed to
`parse_expression`; the mapping is not touched), else the whole line as a
bare expression. -/
def parse_line (prog : Program) (line : List Char) : Except ParseErr Program :=
  match findDecl line with
  | some (name, ds) =>
    if digitsVal ds ≤ maxI64 then
      .ok { vars := (String.mk name, (digitsVal ds : Int)) :: prog.vars,
            statements := prog.statements ++
              [Stmt.Declaration ⟨String.mk name, .Number (digitsVal ds)⟩] }
    else
      .error .intUnwrapPanic
  | none =>
    match findStmt line with
    | some (name, rhs) =>
      match parseToks (tokenize rhs) with
      | .error e => .error e
      | .ok e => .ok { prog with statements := prog.statements ++ [Stmt.Assignment (String.mk name) e] }
    | none =>
      match parseToks (tokenize line) with
      | .error e => .error e
      | .ok e => .ok { prog with statements := prog.statements ++ [Stmt.Expression e] }

/-- The line loop of `fn parse_program`. -/
def parseLines (prog : Program) : List String → Except ParseErr Program
  | [] => .ok prog
  | l :: ls =>
    match parse_line prog l.toList with
    | .error e => .error e
    | .ok prog' => parseLines prog' ls

/-- `fn parse_program`, taking the input as its list of lines (Rust
iterates `input.lines()`). -/
def parse_program (lines : List String) : Except ParseErr Program :=
  parseLines { vars := [], statements := [] } lines

/-- Modelled from the spec: the code generator of spec §4.5 is described
("Number → its decimal text; Variable → its name; binary node →
`"<left-text> <op-symbol> <right-text>"` with no parenthesization of
sub-expressions") but absent from src/; this definition follows those
words. -/
def generate_code : Expr → String
  | .Number n => Int.repr n
  | .Variable name => name
  | .Add l r => generate_code l ++ " + " ++ generate_code r
  | .Sub l r => generate_code l ++ " - " ++ generate_code r
  | .Mul l r => generate_code l ++ " * " ++ generate_code r
  | .Div l r => generate_code l ++ " / " ++ generate_code r

/-! ### Auxiliary notions used by the theorems -/

/-- Whether a token is one of the four arithmetic operators. -/
def isArithTok : Tok → Bool
  | .plus | .minus | .star | .slash => true
  | _ => false

/-- Representability in `i64`. -/
def inI64 (v : Int) : Prop := -9223372036854775808 ≤ v ∧ v ≤ 9223372036854775807

instance (v : Int) : Decidable (inI64 v) := by
  unfold inI64
  infer_instance

/-- The reference grammar of arithmetic lines, indexed by precedence level
(`0` = additive expression, `1` = multiplicative factor, `2` = atom),
together with the value standard left-to-right, precedence-respecting,
truncating integer arithmetic assigns to the token string.  The binary
constructors are left-recursive, giving the standard left-associative
reading; `div` requires a nonzero divisor (otherwise standard evaluation is
undefined, as is the program's); each constructor requires its value to be
representable in `i64`, the integer type the program computes in. -/
inductive Gram : Nat → List Tok → Int → Prop where
  | num (s : List Char) :
      s ≠ [] → s.all Char.isDigit = true → digitsVal s ≤ maxI64 →
      Gram 2 [Tok.num s] (digitsVal s)
  | paren {ts : List Tok} {v : Int} :
      Gram 0 ts v → Gram 2 (Tok.lparen :: ts ++ [Tok.rparen]) v
  | fatom {ts : List Tok} {v : Int} :
      Gram 2 ts v → Gram 1 ts v
  | mul {ts1 ts2 : List Tok} {v1 v2 : Int} :
      Gram 1 ts1 v1 → Gram 2 ts2 v2 → inI64 (v1 * v2) →
      Gram 1 (ts1 ++ Tok.star :: ts2) (v1 * v2)
  | div {ts1 ts2 : List Tok} {v1 v2 : Int} :
      Gram 1 ts1 v1 → Gram 2 ts2 v2 → v2 ≠ 0 → inI64 (Int.tdiv v1 v2) →
      Gram 1 (ts1 ++ Tok.slash :: ts2) (Int.tdiv v1 v2)
  | efactor {ts : List Tok} {v : Int} :
      Gram 1 ts v → Gram 0 ts v
  | add {ts1 ts2 : List Tok} {v1 v2 : Int} :
      Gram 0 ts1 v1 → Gram 1 ts2 v2 → inI64 (v1 + v2) →
      Gram 0 (ts1 ++ Tok.plus :: ts2) (v1 + v2)
  | sub {ts1 ts2 : List Tok} {v1 v2 : Int} :
      Gram 0 ts1 v1 → Gram 1 ts2 v2 → inI64 (v1 - v2) →
      Gram 0 (ts1 ++ Tok.minus :: ts2) (v1 - v2)

/-- Every token in the list has precedence at least `k` and is not an
open-paren (the pending, not yet reduced operators of a partial parse). -/
def pendGE (k : Nat) (pending : List Tok) : Prop :=
  ∀ t ∈ pending, precedence t ≥ k ∧ t ≠ Tok.lparen

/-- The head of the operator stack, if any, has precedence at most `k`. -/
def headLE (k : Nat) (ops : List Tok) : Prop :=
  ∀ t, ops.head? = some t → precedence t ≤ k

/-- Fold `apply_op` over a list of operators (top of stack first). -/
def applyAll : List Tok → List Expr → Except ParseErr (List Expr)
  | [], out => .ok out
  | t :: rest, out =>
    match apply_op t out with
    | .error e => .error e
    | .ok out' => applyAll rest out'

/-- Running paren-depth scan over raw characters: `none` when some prefix
closes more parens than it opened, otherwise the final depth. -/
def parenScanC : Nat → List Char → Option Nat
  | d, [] => some d
  | d, c :: cs =>
    if c = '(' then parenScanC (d + 1) cs
    else if c = ')' then
      match d with
      | 0 => none
      | d' + 1 => parenScanC d' cs
    else parenScanC d cs

/-- Running paren-depth scan over tokens. -/
def parenScanT : Nat → List Tok → Option Nat
  | d, [] => some d
  | d, t :: ts =>
    match t with
    | .lparen => parenScanT (d + 1) ts
    | .rparen =>
      match d with
      | 0 => none
      | d' + 1 => parenScanT d' ts
    | _ => parenScanT d ts

/-- A line's parentheses are balanced: no prefix over-closes, and the final
depth is zero. -/
def balancedParens (l : List Char) : Prop := parenScanC 0 l = some 0

instance (l : List Char) : Decidable (balancedParens l) := by
  unfold balancedParens
  infer_instance

/-- Number of open-parens on the operator stack. -/
def countL : List Tok → Nat
  | [] => 0
  | .lparen :: ops => countL ops + 1
  | _ :: ops => countL ops

/-- Invariant of the operator stack: it only ever holds arithmetic
operators and open-parens. -/
def stackOK (ops : List Tok) : Prop :=
  ∀ t ∈ ops, isArithTok t = true ∨ t = Tok.lparen

/-- The two error conditions malformed input can produce in
`parse_expression`. -/
def softErr (e : ParseErr) : Prop :=
  e = ParseErr.mismatchedParens ∨ e = ParseErr.invalidExpr

/-- The run of `parse_expression` up to (but excluding) the final
"exactly one residual expression" check: token loop plus drain, returning
the full residual output stack. -/
def rawRun (ts : List Tok) : Except ParseErr (List Expr) :=
  match runToks ([], []) ts with
  | .error e => .error e
  | .ok (out, ops) => drain out ops

/-- Whether a tree contains a `Variable` leaf. -/
def hasVar : Expr → Bool
  | .Number _ => false
  | .Variable _ => true
  | .Add l r | .Sub l r | .Mul l r | .Div l r => hasVar l || hasVar r

/-- Whether a numeric token's value fits in `i64` (non-numeric tokens pass
trivially). -/
def numFits : Tok → Bool
  | .num s => digitsVal s ≤ maxI64
  | _ => true

/-- What running the shunting-yard loop over a derivable token string does,
as a function of the grammar level.  An atom (level 2) leaves exactly one
new completed expression on the output stack and the operator stack
untouched.  A factor (level 1), started when the operator stack's top binds
no tighter than `+`/`-`, leaves a group of pending operators of precedence
≥ 2 above the old stack, and reducing them yields one completed expression;
likewise a full expression (level 0), started when the top is an open-paren
or nothing, with pending operators of precedence ≥ 1.  In every case the
completed expression evaluates to the value standard arithmetic assigns. -/
def GramConcl : Nat → List Tok → Int → Prop
  | 2, ts, v =>
    ∀ (out : List Expr) (ops : List Tok),
      ∃ e, runToks (out, ops) ts = .ok (e :: out, ops) ∧ evaluate_expr e [] = .ok v
  | 1, ts, v =>
    ∀ (out : List Expr) (ops : List Tok), headLE 1 ops →
      ∃ out' pending e, pendGE 2 pending ∧
        runToks (out, ops) ts = .ok (out', pending ++ ops) ∧
        applyAll pending out' = .ok (e :: out) ∧ evaluate_expr e [] = .ok v
  | 0, ts, v =>
    ∀ (out : List Expr) (ops : List Tok), headLE 0 ops →
      ∃ out' pending e, pendGE 1 pending ∧
        runToks (out, ops) ts = .ok (out', pending ++ ops) ∧
        applyAll pending out' = .ok (e :: out) ∧ evaluate_expr e [] = .ok v
  | _ + 3, _, _ => True

/-! ## Tokenizer lemmas -/

theorem tokenizeFuel_nil (f : Nat) : tokenizeFuel f [] = [] := by
  cases f <;> rfl

theorem tokenizeFuel_congr (f1 : Nat) :
    ∀ (f2 : Nat) (l : List Char), l.length ≤ f1 → l.length ≤ f2 →
      tokenizeFuel f1 l = tokenizeFuel f2 l := by
  induction f1 with
  | zero =>
    intro f2 l h1 _
    have hl : l = [] := List.eq_nil_of_length_eq_zero (Nat.le_zero.mp h1)
    subst hl
    rw [tokenizeFuel_nil, tokenizeFuel_nil]
  | succ f ih =>
    intro f2 l h1 h2
    cases l with
    | nil => rw [tokenizeFuel_nil, tokenizeFuel_nil]
    | cons c cs =>
      cases f2 with
      | zero => simp at h2
      | succ f2' =>
        simp only [List.length_cons, Nat.succ_le_succ_iff] at h1 h2
        have hdrop : (cs.dropWhile Char.isDigit).length ≤ cs.length :=
          (List.dropWhile_sublist Char.isDigit).length_le
        simp only [tokenizeFuel]
        by_cases hd : c.isDigit
        · simp only [hd, if_true]
          rw [ih f2' _ (le_trans hdrop h1) (le_trans hdrop h2)]
        · simp only [hd, if_false, Bool.false_eq_true]
          by_cases ho : isOpChar c
          · simp only [ho, if_true]
            rw [ih f2' _ h1 h2]
          · simp only [ho, if_false, Bool.false_eq_true]
            rw [ih f2' _ h1 h2]

theorem tokenize_cons (c : Char) (cs : List Char) :
    tokenize (c :: cs) =
      if c.isDigit then
        Tok.num (c :: cs.takeWhile Char.isDigit) :: tokenize (cs.dropWhile Char.isDigit)
      else if isOpChar c then
        opTok c :: tokenize cs
      else
        tokenize cs := by
  show tokenizeFuel (cs.length + 1) (c :: cs) = _
  have hdrop : (cs.dropWhile Char.isDigit).length ≤ cs.length :=
    (List.dropWhile_sublist Char.isDigit).length_le
  simp only [tokenizeFuel]
  by_cases hd : c.isDigit
  · simp only [hd, if_true]
    rw [tokenizeFuel_congr cs.length _ _ hdrop le_rfl]
    rfl
  · simp only [hd, if_false, Bool.false_eq_true]
    by_cases ho : isOpChar c
    · simp only [ho, if_true]
      rfl
    · simp only [ho, if_false, Bool.false_eq_true]
      rfl

/-! ## Splitting lemmas for the parser's stack loops -/

theorem runToks_append (ts1 : List Tok) :
    ∀ (ts2 : List Tok) (st : List Expr × List Tok),
      runToks st (ts1 ++ ts2) =
        match runToks st ts1 with
        | .error e => .error e
        | .ok st' => runToks st' ts2 := by
  induction ts1 with
  | nil => intro ts2 st; rfl
  | cons t ts ih =>
    intro ts2 st
    simp only [List.cons_append, runToks]
    cases step st t with
    | error e => rfl
    | ok st' => exact ih ts2 st'

theorem applyAll_append (p1 : List Tok) :
    ∀ (p2 : List Tok) (out : List Expr),
      applyAll (p1 ++ p2) out =
        match applyAll p1 out with
        | .error e => .error e
        | .ok out' => applyAll p2 out' := by
  induction p1 with
  | nil => intro p2 out; rfl
  | cons t ts ih =>
    intro p2 out
    simp only [List.cons_append, applyAll]
    cases apply_op t out with
    | error e => rfl
    | ok out' => exact ih p2 out'

theorem popGE_split (k : Nat) (pending : List Tok) :
    ∀ (out : List Expr) (rest : List Tok),
      pendGE k pending →
      (∀ t, rest.head? = some t → ¬(t ≠ Tok.lparen ∧ precedence t ≥ k)) →
      popGE k out (pending ++ rest) =
        match applyAll pending out with
        | .error e => .error e
        | .ok out' => .ok (out', rest) := by
  induction pending with
  | nil =>
    intro out rest _ hstop
    cases rest with
    | nil => rfl
    | cons t ops =>
      simp only [List.nil_append, popGE, applyAll]
      rw [if_neg (hstop t rfl)]
  | cons t p ih =>
    intro out rest hp hstop
    have ht := hp t (List.mem_cons_self t p)
    simp only [List.cons_append, popGE, applyAll]
    rw [if_pos ⟨ht.2, ht.1⟩]
    cases apply_op t out with
    | error e => rfl
    | ok out' => exact ih out' rest (fun u hu => hp u (List.mem_cons_of_mem t hu)) hstop

theorem popToParen_split (pending : List Tok) :
    ∀ (out : List Expr) (rest : List Tok),
      (∀ t ∈ pending, t ≠ Tok.lparen) →
      popToParen out (pending ++ Tok.lparen :: rest) =
        match applyAll pending out with
        | .error e => .error e
        | .ok out' => .ok (out', Tok.lparen :: rest) := by
  induction pending with
  | nil =>
    intro out rest _
    simp [popToParen, applyAll]
  | cons t p ih =>
    intro out rest hp
    simp only [List.cons_append, popToParen, applyAll]
    rw [if_neg (hp t (List.mem_cons_self t p))]
    cases apply_op t out with
    | error e => rfl
    | ok out' => exact ih out' rest (fun u hu => hp u (List.mem_cons_of_mem t hu))

theorem drain_split (ops : List Tok) :
    ∀ (out : List Expr), (∀ t ∈ ops, t ≠ Tok.lparen) →
      drain out ops = applyAll ops out := by
  induction ops with
  | nil => intro out _; rfl
  | cons t p ih =>
    intro out hp
    simp only [drain, applyAll]
    rw [if_neg (hp t (List.mem_cons_self t p))]
    cases apply_op t out with
    | error e => rfl
    | ok out' => exact ih out' (fun u hu => hp u (List.mem_cons_of_mem t hu))

/-! ## Soundness of the shunting-yard parser for the reference grammar -/

theorem i64OfToken_of_digits {s : List Char} (h1 : s ≠ []) (h2 : s.all Char.isDigit = true)
    (h3 : digitsVal s ≤ maxI64) : i64OfToken s = some ((digitsVal s : Int)) := by
  unfold i64OfToken
  rw [if_pos ⟨h1, h2, h3⟩]

theorem operandExpr_eq {s : List Char} {n : Int} (h : i64OfToken s = some n) :
    operandExpr s = .Number n := by
  unfold operandExpr
  rw [h]

theorem gram_sound {lvl : Nat} {ts : List Tok} {v : Int} (h : Gram lvl ts v) :
    GramConcl lvl ts v := by
  induction h with
  | num s h1 h2 h3 =>
    intro out ops
    refine ⟨.Number (digitsVal s), ?_, rfl⟩
    simp only [runToks, step, operandExpr_eq (i64OfToken_of_digits h1 h2 h3)]
  | paren hsub ih =>
    intro out ops
    obtain ⟨out', pending, e, hp, hrun, happ, hev⟩ :=
      ih out (Tok.lparen :: ops)
        (by intro t ht; simp only [List.head?_cons, Option.some.injEq] at ht; subst ht; decide)
    refine ⟨e, ?_, hev⟩
    show runToks (out, ops) (Tok.lparen :: (_ ++ [Tok.rparen])) = _
    simp only [runToks, step]
    rw [runToks_append, hrun]
    simp only [runToks, step]
    rw [popToParen_split pending out' ops (fun t ht => (hp t ht).2), happ]
  | fatom hsub ih =>
    intro out ops _
    obtain ⟨e, hrun, hev⟩ := ih out ops
    exact ⟨e :: out, [], e, fun t ht => absurd ht (List.not_mem_nil t), hrun, rfl, hev⟩
  | mul hsub1 hsub2 hI ih1 ih2 =>
    intro out ops hhead
    obtain ⟨out1, p1, e1, hp1, hr1, ha1, he1⟩ := ih1 out ops hhead
    obtain ⟨e2, hr2, he2⟩ := ih2 (e1 :: out) (Tok.star :: ops)
    refine ⟨e2 :: e1 :: out, [Tok.star], .Mul e1 e2, ?_, ?_, rfl, ?_⟩
    · intro t ht
      simp only [List.mem_singleton] at ht
      subst ht
      exact ⟨by decide, by decide⟩
    · rw [runToks_append, hr1]
      simp only [runToks, step, precedence]
      rw [popGE_split 2 p1 out1 ops hp1
            (by intro t ht hc; have := hhead t ht; obtain ⟨-, h2⟩ := hc; omega), ha1]
      exact hr2
    · simp only [evaluate_expr, he1, he2]
  | div hsub1 hsub2 hne hI ih1 ih2 =>
    intro out ops hhead
    obtain ⟨out1, p1, e1, hp1, hr1, ha1, he1⟩ := ih1 out ops hhead
    obtain ⟨e2, hr2, he2⟩ := ih2 (e1 :: out) (Tok.slash :: ops)
    refine ⟨e2 :: e1 :: out, [Tok.slash], .Div e1 e2, ?_, ?_, rfl, ?_⟩
    · intro t ht
      simp only [List.mem_singleton] at ht
      subst ht
      exact ⟨by decide, by decide⟩
    · rw [runToks_append, hr1]
      simp only [runToks, step, precedence]
      rw [popGE_split 2 p1 out1 ops hp1
            (by intro t ht hc; have := hhead t ht; obtain ⟨-, h2⟩ := hc; omega), ha1]
      exact hr2
    · simp only [evaluate_expr, he1, he2]
      rw [if_neg hne]
  | efactor hsub ih =>
    intro out ops hhead
    obtain ⟨out', p, e, hp, hrun, happ, hev⟩ :=
      ih out ops (fun t ht => Nat.le_trans (hhead t ht) (by omega))
    exact ⟨out', p, e,
      fun t ht => ⟨Nat.le_trans (by omega) (hp t ht).1, (hp t ht).2⟩, hrun, happ, hev⟩
  | add hsub1 hsub2 hI ih1 ih2 =>
    intro out ops hhead
    obtain ⟨out1, p1, e1, hp1, hr1, ha1, he1⟩ := ih1 out ops hhead
    obtain ⟨out2, p2, e2, hp2, hr2, ha2, he2⟩ :=
      ih2 (e1 :: out) (Tok.plus :: ops)
        (by intro t ht; simp only [List.head?_cons, Option.some.injEq] at ht; subst ht; decide)
    refine ⟨out2, p2 ++ [Tok.plus], .Add e1 e2, ?_, ?_, ?_, ?_⟩
    · intro t ht
      rcases List.mem_append.mp ht with hm | hm
      · exact ⟨Nat.le_trans (by omega) (hp2 t hm).1, (hp2 t hm).2⟩
      · simp only [List.mem_singleton] at hm
        subst hm
        exact ⟨by decide, by decide⟩
    · rw [runToks_append, hr1]
      simp only [runToks, step, precedence]
      rw [popGE_split 1 p1 out1 ops hp1
            (by intro t ht hc; have := hhead t ht; obtain ⟨-, h2⟩ := hc; omega), ha1]
      rw [List.append_assoc p2 [Tok.plus] ops]
      exact hr2
    · rw [applyAll_append, ha2]
      rfl
    · simp only [evaluate_expr, he1, he2]
  | sub hsub1 hsub2 hI ih1 ih2 =>
    intro out ops hhead
    obtain ⟨out1, p1, e1, hp1, hr1, ha1, he1⟩ := ih1 out ops hhead
    obtain ⟨out2, p2, e2, hp2, hr2, ha2, he2⟩ :=
      ih2 (e1 :: out) (Tok.minus :: ops)
        (by intro t ht; simp only [List.head?_cons, Option.some.injEq] at ht; subst ht; decide)
    refine ⟨out2, p2 ++ [Tok.minus], .Sub e1 e2, ?_, ?_, ?_, ?_⟩
    · intro t ht
      rcases List.mem_append.mp ht with hm | hm
      · exact ⟨Nat.le_trans (by omega) (hp2 t hm).1, (hp2 t hm).2⟩
      · simp only [List.mem_singleton] at hm
        subst hm
        exact ⟨by decide, by decide⟩
    · rw [runToks_append, hr1]
      simp only [runToks, step, precedence]
      rw [popGE_split 1 p1 out1 ops hp1
            (by intro t ht hc; have := hhead t ht; obtain ⟨-, h2⟩ := hc; omega), ha1]
      rw [List.append_assoc p2 [Tok.minus] ops]
      exact hr2
    · rw [applyAll_append, ha2]
      rfl
    · simp only [evaluate_expr, he1, he2]

/-- Transport a grammar derivation along equalities of its indices. -/
theorem gram_cast {lvl : Nat} {ts ts' : List Tok} {v v' : Int}
    (h : Gram lvl ts v) (ht : ts = ts') (hv : v = v') : Gram lvl ts' v' :=
  ht ▸ hv ▸ h

/-- C1: for every input line that reads as integer literals combined with
`+`, `-`, `*`, `/` and balanced parentheses (formalised by the reference
grammar `Gram` at level 0, whose value index is the result of standard
left-to-right, precedence-respecting, truncating integer arithmetic),
parsing the line with the expression parser succeeds and evaluating the
resulting tree yields that same integer. -/
theorem c1_parse_eval_std_arith (input : String) (v : Int)
    (h : Gram 0 (tokenize input.toList) v) :
    ∃ e, parse_expression input = .ok e ∧ evaluate_expr e [] = .ok v := by
  have hc := gram_sound h
  obtain ⟨out', pending, e, hp, hrun, happ, hev⟩ :=
    hc [] [] (by intro t ht; simp at ht)
  refine ⟨e, ?_, hev⟩
  rw [List.append_nil] at hrun
  have hdr : drain out' pending = .ok [e] := by
    rw [drain_split pending out' (fun t ht => (hp t ht).2), happ]
  unfold parse_expression parseToks
  simp only [hrun, hdr]

/-- C1 witness: `"3 + (4 * 2) / (1 - 5)"` parses and evaluates to `1`, and
`"2 + 3 * 4"` parses and evaluates to `14`, by instantiating the general
theorem with explicit grammar derivations. -/
theorem c1_witness :
    (∃ e, parse_expression "3 + (4 * 2) / (1 - 5)" = .ok e ∧ evaluate_expr e [] = .ok 1) ∧
    (∃ e, parse_expression "2 + 3 * 4" = .ok e ∧ evaluate_expr e [] = .ok 14) := by
  constructor
  · refine c1_parse_eval_std_arith _ 1 ?_
    have a3 := Gram.num ['3'] (by decide) (by decide) (by decide)
    have a4 := Gram.num ['4'] (by decide) (by decide) (by decide)
    have a2 := Gram.num ['2'] (by decide) (by decide) (by decide)
    have a1 := Gram.num ['1'] (by decide) (by decide) (by decide)
    have a5 := Gram.num ['5'] (by decide) (by decide) (by decide)
    have m42 := Gram.mul (.fatom a4) a2 (by decide)
    have s15 := Gram.sub (.efactor (.fatom a1)) (.fatom a5) (by decide)
    have d := Gram.div (.fatom (.paren (.efactor m42))) (.paren s15) (by decide) (by decide)
    have top := Gram.add (.efactor (.fatom a3)) d (by decide)
    exact gram_cast top (by decide) (by decide)
  · refine c1_parse_eval_std_arith _ 14 ?_
    have b2 := Gram.num ['2'] (by decide) (by decide) (by decide)
    have b3 := Gram.num ['3'] (by decide) (by decide) (by decide)
    have b4 := Gram.num ['4'] (by decide) (by decide) (by decide)
    have m34 := Gram.mul (.fatom b3) b4 (by decide)
    have top := Gram.add (.efactor (.fatom b2)) m34 (by decide)
    exact gram_cast top (by decide) (by decide)

/-- C2: the parser is left-associative: a token line `a - b - c` (for any
numeric tokens that pass the `i64` guard) parses to the tree `(a - b) - c`
— the second `-`, having precedence equal to the stacked `-`, reduces the
stacked operator first — and that tree evaluates to `(a - b) - c`. -/
theorem c2_left_assoc (s1 s2 s3 : List Char) (n1 n2 n3 : Int)
    (h1 : i64OfToken s1 = some n1) (h2 : i64OfToken s2 = some n2)
    (h3 : i64OfToken s3 = some n3) :
    parseToks [Tok.num s1, Tok.minus, Tok.num s2, Tok.minus, Tok.num s3] =
      .ok (.Sub (.Sub (.Number n1) (.Number n2)) (.Number n3)) ∧
    evaluate_expr (.Sub (.Sub (.Number n1) (.Number n2)) (.Number n3)) [] =
      .ok (n1 - n2 - n3) := by
  constructor
  · have st1 : runToks ([], []) [Tok.num s1, Tok.minus, Tok.num s2, Tok.minus, Tok.num s3] =
        .ok ([Expr.Number n3, Expr.Sub (Expr.Number n1) (Expr.Number n2)], [Tok.minus]) := by
      simp [runToks, step, operandExpr_eq h1, operandExpr_eq h2, operandExpr_eq h3,
        popGE, precedence, apply_op]
    simp [parseToks, st1, drain, apply_op]
  · simp only [evaluate_expr]

/-- C2 witness: `"10 - 2 - 3"` parses to `(10 - 2) - 3` and evaluates to
`5` (not `11`). -/
theorem c2_witness :
    parse_expression "10 - 2 - 3" = .ok (.Sub (.Sub (.Number 10) (.Number 2)) (.Number 3)) ∧
    evaluate_expr (.Sub (.Sub (.Number 10) (.Number 2)) (.Number 3)) [] = .ok 5 := by
  have h := c2_left_assoc ['1', '0'] ['2'] ['3'] 10 2 3 (by decide) (by decide) (by decide)
  refine ⟨?_, by have h2 := h.2; norm_num at h2; exact h2⟩
  show parseToks (tokenize (String.toList "10 - 2 - 3")) = _
  have ht : tokenize (String.toList "10 - 2 - 3") =
      [Tok.num ['1', '0'], Tok.minus, Tok.num ['2'], Tok.minus, Tok.num ['3']] := by decide
  rw [ht]
  exact h.1

/-- C4: `parse_expression` fails with InvalidExpression exactly when the
run up to the final residue check (`rawRun`: token loop plus operator-stack
drain) either itself signals InvalidExpression — and inside that run only
`apply_op` on a stack with fewer than two operands produces
InvalidExpression, per the third conjunct — or completes with an output
stack holding zero or more than one expression; otherwise, when exactly one
expression remains, that expression is returned. -/
theorem c4_invalid_iff (ts : List Tok) :
    (parseToks ts = .error .invalidExpr ↔
      rawRun ts = .error .invalidExpr ∨ ∃ out, rawRun ts = .ok out ∧ out.length ≠ 1) ∧
    (∀ e, rawRun ts = .ok [e] → parseToks ts = .ok e) ∧
    (∀ (t : Tok) (out : List Expr), apply_op t out = .error .invalidExpr ↔ out.length < 2) := by
  refine ⟨?_, ?_, ?_⟩
  · unfold parseToks rawRun
    cases hr : runToks ([], []) ts with
    | error e => simp
    | ok st =>
      obtain ⟨out, ops⟩ := st
      cases hd : drain out ops with
      | error e => simp [hd]
      | ok res =>
        match res with
        | [] => simp [hd]
        | [e] => simp [hd]
        | a :: b :: rest => simp [hd]
  · intro e
    unfold parseToks rawRun
    cases hr : runToks ([], []) ts with
    | error er => simp
    | ok st =>
      obtain ⟨out, ops⟩ := st
      cases hd : drain out ops with
      | error er => simp [hd]
      | ok res =>
        simp only [hd, Except.ok.injEq]
        intro hres
        subst hres
        simp
  · intro t out
    match t, out with
    | _, [] => constructor <;> simp [apply_op]
    | _, [e] => constructor <;> simp [apply_op]
    | .plus, r :: l :: rest => simp [apply_op]
    | .minus, r :: l :: rest => simp [apply_op]
    | .star, r :: l :: rest => simp [apply_op]
    | .slash, r :: l :: rest => simp [apply_op]
    | .num s, r :: l :: rest => simp [apply_op]
    | .ident s, r :: l :: rest => simp [apply_op]
    | .lparen, r :: l :: rest => simp [apply_op]
    | .rparen, r :: l :: rest => simp [apply_op]

/-- C4 witness: two consecutive operands (`"1 2"`) leave two residual
expressions and fail with InvalidExpression via the first conjunct; a
single literal (`"3"`) leaves exactly one and is returned via the second
conjunct; `apply_op` on a one-element stack underflows via the third. -/
theorem c4_witness :
    parseToks [Tok.num ['1'], Tok.num ['2']] = .error .invalidExpr ∧
    parseToks [Tok.num ['3']] = .ok (.Number 3) ∧
    apply_op Tok.plus [Expr.Number 3] = .error .invalidExpr := by
  refine ⟨?_, ?_, ?_⟩
  · exact (c4_invalid_iff [Tok.num ['1'], Tok.num ['2']]).1.mpr
      (Or.inr ⟨[Expr.Number 2, Expr.Number 1], by decide, by decide⟩)
  · exact (c4_invalid_iff [Tok.num ['3']]).2.1 (.Number 3) (by decide)
  · exact (c4_invalid_iff []).2.2 Tok.plus [Expr.Number 3] |>.mpr (by decide)

/-- C8: evaluating a `Div` node whose right child evaluates to zero fails
with DivisionByZero at evaluation time; in particular `"4 / 0"` parses
fine (the error is not caught at parse time) and its evaluation fails with
DivisionByZero; division by a nonzero value is truncating (`Int.tdiv`)
integer division, e.g. `7 / (-2)` evaluates to `-3`, not the floor `-4`. -/
theorem c8_division_by_zero :
    (∀ (l r : Expr) (vars : List (String × Int)) (a : Int),
      evaluate_expr l vars = .ok a → evaluate_expr r vars = .ok 0 →
      evaluate_expr (.Div l r) vars = .error .divisionByZero) ∧
    parse_expression "4 / 0" = .ok (.Div (.Number 4) (.Number 0)) ∧
    evaluate_expr (.Div (.Number 4) (.Number 0)) [] = .error .divisionByZero ∧
    (∀ (l r : Expr) (vars : List (String × Int)) (a b : Int),
      evaluate_expr l vars = .ok a → evaluate_expr r vars = .ok b → b ≠ 0 →
      evaluate_expr (.Div l r) vars = .ok (Int.tdiv a b)) ∧
    evaluate_expr (.Div (.Number 7) (.Number (-2))) [] = .ok (-3) := by
  refine ⟨?_, ?_, ?_, ?_, ?_⟩
  · intro l r vars a hl hr
    simp [evaluate_expr, hl, hr]
  · decide
  · decide
  · intro l r vars a b hl hr hb
    simp [evaluate_expr, hl, hr, hb]
  · decide

/-- C8 witness: the general div-by-zero conjunct applied at
`1 / (2 - 2)`, and the truncating-division conjunct applied at `9 / 2`. -/
theorem c8_witness :
    evaluate_expr (.Div (.Number 1) (.Sub (.Number 2) (.Number 2))) [] =
      .error .divisionByZero ∧
    evaluate_expr (.Div (.Number 9) (.Number 2)) [] = .ok 4 := by
  constructor
  · exact c8_division_by_zero.1 _ _ [] 1 rfl (by decide)
  · exact (c8_division_by_zero.2.2.2.1 (.Number 9) (.Number 2) [] 9 2 rfl rfl
      (by decide)).trans (by decide)

/-! ## Parenthesis accounting (claim C3) -/

theorem digit_not_paren {c : Char} (h : c.isDigit = true) : c ≠ '(' ∧ c ≠ ')' := by
  constructor <;> rintro rfl <;> exact absurd h (by decide)

theorem parenScanC_append_of_skip (xs : List Char) :
    ∀ (ys : List Char) (d : Nat), (∀ c ∈ xs, c ≠ '(' ∧ c ≠ ')') →
      parenScanC d (xs ++ ys) = parenScanC d ys := by
  induction xs with
  | nil => intro ys d _; rfl
  | cons c cs ih =>
    intro ys d h
    have hc := h c (List.mem_cons_self c cs)
    simp only [List.cons_append, parenScanC]
    rw [if_neg hc.1, if_neg hc.2]
    exact ih ys d (fun u hu => h u (List.mem_cons_of_mem c hu))

theorem parenScanC_cons_skip {c : Char} (h1 : c ≠ '(') (h2 : c ≠ ')')
    (cs : List Char) (d : Nat) : parenScanC d (c :: cs) = parenScanC d cs := by
  simp [parenScanC, h1, h2]

theorem parenScanT_tokenize :
    ∀ (n : Nat) (l : List Char), l.length ≤ n →
      ∀ d, parenScanT d (tokenize l) = parenScanC d l := by
  intro n
  induction n with
  | zero =>
    intro l h d
    have hl : l = [] := List.eq_nil_of_length_eq_zero (Nat.le_zero.mp h)
    subst hl
    rfl
  | succ n ih =>
    intro l h d
    cases l with
    | nil => rfl
    | cons c cs =>
      simp only [List.length_cons, Nat.succ_le_succ_iff] at h
      rw [tokenize_cons]
      by_cases hd : c.isDigit
      · simp only [hd, if_true]
        have hdrop : (cs.dropWhile Char.isDigit).length ≤ cs.length :=
          (List.dropWhile_sublist Char.isDigit).length_le
        have hcp := digit_not_paren hd
        show parenScanT d (tokenize (cs.dropWhile Char.isDigit)) = _
        rw [ih (cs.dropWhile Char.isDigit) (le_trans hdrop h) d,
          parenScanC_cons_skip hcp.1 hcp.2]
        conv_rhs => rw [← List.takeWhile_append_dropWhile (p := Char.isDigit) (l := cs)]
        rw [parenScanC_append_of_skip _ _ _
          (fun u hu => digit_not_paren (List.mem_takeWhile_imp hu))]
      · simp only [hd, if_false, Bool.false_eq_true]
        by_cases ho : isOpChar c
        · simp only [ho, if_true]
          by_cases hlp : c = '('
          · subst hlp
            exact ih cs h (d + 1)
          · by_cases hrp : c = ')'
            · subst hrp
              cases d with
              | zero => rfl
              | succ d' => exact ih cs h d'
            · have hc4 : c = '+' ∨ c = '-' ∨ c = '*' ∨ c = '/' := by
                simp only [isOpChar, Bool.or_eq_true, decide_eq_true_eq] at ho
                rcases ho with ((((h' | h') | h') | h') | h') | h'
                · exact Or.inl h'
                · exact Or.inr (Or.inl h')
                · exact Or.inr (Or.inr (Or.inl h'))
                · exact Or.inr (Or.inr (Or.inr h'))
                · exact absurd h' hlp
                · exact absurd h' hrp
              have hskip : parenScanT d (opTok c :: tokenize cs) = parenScanT d (tokenize cs) := by
                rcases hc4 with rfl | rfl | rfl | rfl <;> rfl
              rw [hskip, parenScanC_cons_skip hlp hrp]
              exact ih cs h d
        · simp only [ho, if_false, Bool.false_eq_true]
          have hlp : c ≠ '(' := by intro hc; apply ho; subst hc; decide
          have hrp : c ≠ ')' := by intro hc; apply ho; subst hc; decide
          rw [parenScanC_cons_skip hlp hrp]
          exact ih cs h d

/-! ## Stack invariants under malformed input (claim C3) -/

theorem countL_cons (t : Tok) (rest : List Tok) :
    countL (t :: rest) = countL rest + (if t = Tok.lparen then 1 else 0) := by
  cases t <;> simp [countL]

theorem lparen_mem_of_countL_pos : ∀ (ops : List Tok), countL ops ≠ 0 → Tok.lparen ∈ ops := by
  intro ops
  induction ops with
  | nil => intro h; exact absurd rfl h
  | cons t rest ih =>
    intro h
    by_cases ht : t = Tok.lparen
    · subst ht; exact List.mem_cons_self _ _
    · rw [countL_cons, if_neg ht] at h
      simp only [Nat.add_zero] at h
      exact List.mem_cons_of_mem t (ih h)

theorem apply_op_arith_err {t : Tok} {out : List Expr} {e : ParseErr}
    (ht : isArithTok t = true) (h : apply_op t out = .error e) : e = .invalidExpr := by
  match out with
  | [] =>
    unfold apply_op at h
    simp only [Except.error.injEq] at h
    exact h.symm
  | [x] =>
    unfold apply_op at h
    simp only [Except.error.injEq] at h
    exact h.symm
  | r :: l :: rest =>
    cases t with
    | plus => simp [apply_op] at h
    | minus => simp [apply_op] at h
    | star => simp [apply_op] at h
    | slash => simp [apply_op] at h
    | num s => simp [isArithTok] at ht
    | ident s => simp [isArithTok] at ht
    | lparen => simp [isArithTok] at ht
    | rparen => simp [isArithTok] at ht

theorem popGE_inv (k : Nat) :
    ∀ (ops : List Tok) (out : List Expr), stackOK ops →
      popGE k out ops = .error .invalidExpr ∨
      (∃ out' ops', popGE k out ops = .ok (out', ops') ∧ stackOK ops' ∧
        countL ops' = countL ops) := by
  intro ops
  induction ops with
  | nil =>
    intro out _
    right
    exact ⟨out, [], rfl, fun t ht => absurd ht (List.not_mem_nil t), rfl⟩
  | cons t rest ih =>
    intro out hok
    by_cases hc : t ≠ Tok.lparen ∧ precedence t ≥ k
    · have ht : isArithTok t = true := by
        rcases hok t (List.mem_cons_self t rest) with h | h
        · exact h
        · exact absurd h hc.1
      have hrest : stackOK rest := fun u hu => hok u (List.mem_cons_of_mem t hu)
      rw [popGE, if_pos hc]
      cases ha : apply_op t out with
      | error e =>
        left
        rw [apply_op_arith_err ht ha]
      | ok out1 =>
        rcases ih out1 hrest with h | ⟨o', os', heq, hsOK, hcnt⟩
        · left; exact h
        · right
          refine ⟨o', os', heq, hsOK, ?_⟩
          rw [countL_cons, if_neg hc.1]
          omega
    · right
      refine ⟨out, t :: rest, ?_, hok, rfl⟩
      rw [popGE, if_neg hc]

theorem popToParen_inv :
    ∀ (ops : List Tok) (out : List Expr), stackOK ops →
      popToParen out ops = .error .invalidExpr ∨
      (∃ out', popToParen out ops = .ok (out', []) ∧ countL ops = 0) ∨
      (∃ out' rest, popToParen out ops = .ok (out', Tok.lparen :: rest) ∧ stackOK rest ∧
        countL ops = countL rest + 1) := by
  intro ops
  induction ops with
  | nil =>
    intro out _
    right; left
    exact ⟨out, rfl, rfl⟩
  | cons t rest ih =>
    intro out hok
    have hrest : stackOK rest := fun u hu => hok u (List.mem_cons_of_mem t hu)
    by_cases hlp : t = Tok.lparen
    · subst hlp
      right; right
      refine ⟨out, rest, ?_, hrest, ?_⟩
      · rw [popToParen, if_pos rfl]
      · rw [countL_cons, if_pos rfl]
    · have ht : isArithTok t = true := by
        rcases hok t (List.mem_cons_self t rest) with h | h
        · exact h
        · exact absurd h hlp
      rw [popToParen, if_neg hlp]
      cases ha : apply_op t out with
      | error e =>
        left
        rw [apply_op_arith_err ht ha]
      | ok out1 =>
        rcases ih out1 hrest with h | ⟨o', heq, hcnt⟩ | ⟨o', os', heq, hsOK, hcnt⟩
        · left; exact h
        · right; left
          refine ⟨o', heq, ?_⟩
          rw [countL_cons, if_neg hlp]
          omega
        · right; right
          refine ⟨o', os', heq, hsOK, ?_⟩
          rw [countL_cons, if_neg hlp]
          omega

theorem drain_err_of_lparen :
    ∀ (ops : List Tok) (out : List Expr), stackOK ops → Tok.lparen ∈ ops →
      ∃ e, drain out ops = .error e ∧ softErr e := by
  intro ops
  induction ops with
  | nil => intro out _ hm; exact absurd hm (List.not_mem_nil _)
  | cons t rest ih =>
    intro out hok hm
    by_cases hlp : t = Tok.lparen
    · subst hlp
      refine ⟨.mismatchedParens, ?_, Or.inl rfl⟩
      rw [drain, if_pos rfl]
    · have ht : isArithTok t = true := by
        rcases hok t (List.mem_cons_self t rest) with h | h
        · exact h
        · exact absurd h hlp
      have hrest : stackOK rest := fun u hu => hok u (List.mem_cons_of_mem t hu)
      have hm' : Tok.lparen ∈ rest := by
        rcases List.mem_cons.mp hm with h | h
        · exact absurd h.symm hlp
        · exact h
      rw [drain, if_neg hlp]
      cases ha : apply_op t out with
      | error e =>
        exact ⟨.invalidExpr, by rw [apply_op_arith_err ht ha], Or.inr rfl⟩
      | ok out1 =>
        exact ih out1 hrest hm'

theorem step_arith {t : Tok} (ht : isArithTok t = true) (out : List Expr) (ops : List Tok) :
    step (out, ops) t =
      match popGE (precedence t) out ops with
      | .error e => .error e
      | .ok (out1, ops1) => .ok (out1, t :: ops1) := by
  cases t <;> simp [isArithTok] at ht <;> rfl

theorem runToks_scan :
    ∀ (ts : List Tok) (out : List Expr) (ops : List Tok), stackOK ops →
      (∃ e, runToks (out, ops) ts = .error e ∧ softErr e) ∨
      (∃ out' ops', runToks (out, ops) ts = .ok (out', ops') ∧ stackOK ops' ∧
        parenScanT (countL ops) ts = some (countL ops')) := by
  intro ts
  induction ts with
  | nil =>
    intro out ops hok
    right
    exact ⟨out, ops, rfl, hok, rfl⟩
  | cons t ts ih =>
    intro out ops hok
    by_cases hA : isArithTok t = true
    · rw [runToks, step_arith hA]
      rcases popGE_inv (precedence t) ops out hok with h | ⟨out1, ops1, heq, hsOK, hcnt⟩
      · left
        rw [h]
        exact ⟨.invalidExpr, rfl, Or.inr rfl⟩
      · rw [heq]
        have hok1 : stackOK (t :: ops1) := by
          intro u hu
          rcases List.mem_cons.mp hu with h | h
          · subst h; exact Or.inl hA
          · exact hsOK u h
        rcases ih out1 (t :: ops1) hok1 with h | ⟨out2, ops2, heq2, hsOK2, hscan⟩
        · left; exact h
        · right
          refine ⟨out2, ops2, heq2, hsOK2, ?_⟩
          have hne : t ≠ Tok.lparen := by cases t <;> simp_all [isArithTok]
          have hscan' : parenScanT (countL ops) (t :: ts) = parenScanT (countL ops) ts := by
            cases t <;> simp [isArithTok] at hA <;> rfl
          rw [hscan', ← hscan, countL_cons, if_neg hne, hcnt, Nat.add_zero]
    · cases t with
      | num s =>
        rw [runToks]
        rcases ih (operandExpr s :: out) ops hok with h | ⟨out2, ops2, heq2, hsOK2, hscan⟩
        · left; exact h
        · right; exact ⟨out2, ops2, heq2, hsOK2, hscan⟩
      | ident s =>
        rw [runToks]
        rcases ih (operandExpr s :: out) ops hok with h | ⟨out2, ops2, heq2, hsOK2, hscan⟩
        · left; exact h
        · right; exact ⟨out2, ops2, heq2, hsOK2, hscan⟩
      | lparen =>
        rw [runToks]
        have hok1 : stackOK (Tok.lparen :: ops) := by
          intro u hu
          rcases List.mem_cons.mp hu with h | h
          · subst h; exact Or.inr rfl
          · exact hok u h
        rcases ih out (Tok.lparen :: ops) hok1 with h | ⟨out2, ops2, heq2, hsOK2, hscan⟩
        · left; exact h
        · right
          refine ⟨out2, ops2, heq2, hsOK2, ?_⟩
          simp only [parenScanT]
          rw [← hscan, countL_cons, if_pos rfl]
      | rparen =>
        rw [runToks]
        rcases popToParen_inv ops out hok with h | ⟨out1, heq, hcnt⟩ |
          ⟨out1, rest, heq, hsOK1, hcnt⟩
        · left
          simp only [step, h]
          exact ⟨.invalidExpr, rfl, Or.inr rfl⟩
        · left
          simp only [step, heq]
          exact ⟨.mismatchedParens, rfl, Or.inl rfl⟩
        · simp only [step, heq]
          rcases ih out1 rest hsOK1 with h | ⟨out2, ops2, heq2, hsOK2, hscan⟩
          · left; exact h
          · right
            refine ⟨out2, ops2, heq2, hsOK2, ?_⟩
            simp only [parenScanT]
            rw [hcnt]
            exact hscan
      | plus => simp [isArithTok] at hA
      | minus => simp [isArithTok] at hA
      | star => simp [isArithTok] at hA
      | slash => simp [isArithTok] at hA

/-- C3 (amended): for every input line whose parentheses are unbalanced
(some prefix closes more than it opened, or the final depth is nonzero),
expression parsing fails — with MismatchedParentheses or, when a reduction
runs out of operands before the parenthesis check is reached, with
InvalidExpression; it never silently succeeds. -/
theorem c3_unbalanced_fails (input : String) (h : ¬ balancedParens input.toList) :
    parse_expression input = .error .mismatchedParens ∨
    parse_expression input = .error .invalidExpr := by
  have hscan0 : parenScanT 0 (tokenize input.toList) = parenScanC 0 input.toList :=
    parenScanT_tokenize input.toList.length input.toList le_rfl 0
  rcases runToks_scan (tokenize input.toList) [] []
      (fun t ht => absurd ht (List.not_mem_nil t)) with
    ⟨e, herr, hsoft⟩ | ⟨out', ops', hok, hsOK, hscan⟩
  · have hp : parse_expression input = .error e := by
      unfold parse_expression parseToks
      rw [herr]
    rcases hsoft with rfl | rfl
    · exact Or.inl hp
    · exact Or.inr hp
  · have hcnt : countL ops' ≠ 0 := by
      intro h0
      apply h
      unfold balancedParens
      rw [← hscan0]
      show parenScanT (countL ([] : List Tok)) (tokenize input.toList) = some 0
      rw [hscan, h0]
    obtain ⟨e, hde, hsoft⟩ :=
      drain_err_of_lparen ops' out' hsOK (lparen_mem_of_countL_pos ops' hcnt)
    have hp : parse_expression input = .error e := by
      unfold parse_expression parseToks
      rw [hok]
      show (match drain out' ops' with
        | Except.error e => Except.error e
        | Except.ok [e] => Except.ok e
        | Except.ok _ => Except.error ParseErr.invalidExpr) = Except.error e
      rw [hde]
    rcases hsoft with rfl | rfl
    · exact Or.inl hp
    · exact Or.inr hp

/-- C3 counterexample: the line `"+)"` has an unmatched close-paren, yet
parsing fails with InvalidExpression (the reduction triggered by `)` finds
fewer than two operands before the missing open-paren is noticed), not
MismatchedParentheses as the claim states. -/
theorem c3_counterexample :
    parenScanC 0 (String.toList "+)") = none ∧
    parse_expression "+)" = .error .invalidExpr := by
  constructor
  · decide
  · decide

/-- C3 witness: the unbalanced line `"("` fails with one of the two
conditions (in fact MismatchedParentheses). -/
theorem c3_witness :
    parse_expression "(" = .error .mismatchedParens ∨
    parse_expression "(" = .error .invalidExpr :=
  c3_unbalanced_fails "(" (by decide)

/-! ## Variable leaves (claim C10) -/

theorem opTok_cases (c : Char) :
    opTok c = Tok.plus ∨ opTok c = Tok.minus ∨ opTok c = Tok.star ∨ opTok c = Tok.slash ∨
    opTok c = Tok.lparen ∨ opTok c = Tok.rparen := by
  unfold opTok
  split_ifs <;> simp

theorem tokenize_shape :
    ∀ (n : Nat) (l : List Char), l.length ≤ n → ∀ t ∈ tokenize l,
      (∃ s, t = Tok.num s ∧ s ≠ [] ∧ s.all Char.isDigit = true) ∨
      t = Tok.plus ∨ t = Tok.minus ∨ t = Tok.star ∨ t = Tok.slash ∨
      t = Tok.lparen ∨ t = Tok.rparen := by
  intro n
  induction n with
  | zero =>
    intro l h t ht
    have hl : l = [] := List.eq_nil_of_length_eq_zero (Nat.le_zero.mp h)
    subst hl
    exact absurd ht (List.not_mem_nil t)
  | succ n ih =>
    intro l h t ht
    cases l with
    | nil => exact absurd ht (List.not_mem_nil t)
    | cons c cs =>
      simp only [List.length_cons, Nat.succ_le_succ_iff] at h
      rw [tokenize_cons] at ht
      by_cases hd : c.isDigit
      · simp only [hd, if_true] at ht
        rcases List.mem_cons.mp ht with rfl | ht'
        · left
          refine ⟨c :: cs.takeWhile Char.isDigit, rfl, by simp, ?_⟩
          simp only [List.all_eq_true, decide_eq_true_eq]
          intro u hu
          rcases List.mem_cons.mp hu with rfl | hu'
          · exact hd
          · exact List.mem_takeWhile_imp hu'
        · have hdrop : (cs.dropWhile Char.isDigit).length ≤ cs.length :=
            (List.dropWhile_sublist Char.isDigit).length_le
          exact ih (cs.dropWhile Char.isDigit) (le_trans hdrop h) t ht'
      · simp only [hd, if_false, Bool.false_eq_true] at ht
        by_cases ho : isOpChar c
        · simp only [ho, if_true] at ht
          rcases List.mem_cons.mp ht with rfl | ht'
          · exact Or.inr (opTok_cases c)
          · exact ih cs h t ht'
        · simp only [ho, if_false, Bool.false_eq_true] at ht
          exact ih cs h t ht

theorem operandExpr_noVar {s : List Char} (h1 : s ≠ []) (h2 : s.all Char.isDigit = true)
    (h3 : digitsVal s ≤ maxI64) : hasVar (operandExpr s) = false := by
  rw [operandExpr_eq (i64OfToken_of_digits h1 h2 h3)]
  rfl

theorem apply_op_noVar {t : Tok} {out out' : List Expr}
    (h : apply_op t out = .ok out') (hnv : ∀ e ∈ out, hasVar e = false) :
    ∀ e ∈ out', hasVar e = false := by
  match out with
  | [] => simp [apply_op] at h
  | [x] => simp [apply_op] at h
  | r :: l :: rest =>
    have hr := hnv r (List.mem_cons_self r _)
    have hl := hnv l (List.mem_cons_of_mem r (List.mem_cons_self l rest))
    have hrest : ∀ e ∈ rest, hasVar e = false :=
      fun e he => hnv e (List.mem_cons_of_mem r (List.mem_cons_of_mem l he))
    cases t with
    | plus =>
      simp only [apply_op, Except.ok.injEq] at h
      subst h
      intro e he
      rcases List.mem_cons.mp he with rfl | he'
      · simp [hasVar, hl, hr]
      · exact hrest e he'
    | minus =>
      simp only [apply_op, Except.ok.injEq] at h
      subst h
      intro e he
      rcases List.mem_cons.mp he with rfl | he'
      · simp [hasVar, hl, hr]
      · exact hrest e he'
    | star =>
      simp only [apply_op, Except.ok.injEq] at h
      subst h
      intro e he
      rcases List.mem_cons.mp he with rfl | he'
      · simp [hasVar, hl, hr]
      · exact hrest e he'
    | slash =>
      simp only [apply_op, Except.ok.injEq] at h
      subst h
      intro e he
      rcases List.mem_cons.mp he with rfl | he'
      · simp [hasVar, hl, hr]
      · exact hrest e he'
    | num s => simp [apply_op] at h
    | ident s => simp [apply_op] at h
    | lparen => simp [apply_op] at h
    | rparen => simp [apply_op] at h

theorem popGE_noVar (k : Nat) :
    ∀ (ops : List Tok) (out : List Expr) {out' : List Expr} {ops' : List Tok},
      popGE k out ops = .ok (out', ops') → (∀ e ∈ out, hasVar e = false) →
      ∀ e ∈ out', hasVar e = false := by
  intro ops
  induction ops with
  | nil =>
    intro out out' ops' h hnv
    simp only [popGE, Except.ok.injEq, Prod.mk.injEq] at h
    rw [← h.1]
    exact hnv
  | cons t rest ih =>
    intro out out' ops' h hnv
    rw [popGE] at h
    split_ifs at h with hc
    · cases ha : apply_op t out with
      | error e => rw [ha] at h; cases h
      | ok out1 =>
        rw [ha] at h
        exact ih out1 h (apply_op_noVar ha hnv)
    · simp only [Except.ok.injEq, Prod.mk.injEq] at h
      rw [← h.1]
      exact hnv

theorem popToParen_noVar :
    ∀ (ops : List Tok) (out : List Expr) {out' : List Expr} {ops' : List Tok},
      popToParen out ops = .ok (out', ops') → (∀ e ∈ out, hasVar e = false) →
      ∀ e ∈ out', hasVar e = false := by
  intro ops
  induction ops with
  | nil =>
    intro out out' ops' h hnv
    simp only [popToParen, Except.ok.injEq, Prod.mk.injEq] at h
    rw [← h.1]
    exact hnv
  | cons t rest ih =>
    intro out out' ops' h hnv
    rw [popToParen] at h
    split_ifs at h with hc
    · simp only [Except.ok.injEq, Prod.mk.injEq] at h
      rw [← h.1]
      exact hnv
    · cases ha : apply_op t out with
      | error e => rw [ha] at h; cases h
      | ok out1 =>
        rw [ha] at h
        exact ih out1 h (apply_op_noVar ha hnv)

theorem drain_noVar :
    ∀ (ops : List Tok) (out : List Expr) {res : List Expr},
      drain out ops = .ok res → (∀ e ∈ out, hasVar e = false) →
      ∀ e ∈ res, hasVar e = false := by
  intro ops
  induction ops with
  | nil =>
    intro out res h hnv
    simp only [drain, Except.ok.injEq] at h
    rw [← h]
    exact hnv
  | cons t rest ih =>
    intro out res h hnv
    rw [drain] at h
    by_cases hc : t = Tok.lparen
    · rw [if_pos hc] at h
      exact Except.noConfusion h
    · rw [if_neg hc] at h
      cases ha : apply_op t out with
      | error e => rw [ha] at h; exact Except.noConfusion h
      | ok out1 =>
        rw [ha] at h
        exact ih out1 h (apply_op_noVar ha hnv)

theorem runToks_noVar :
    ∀ (ts : List Tok) (out : List Expr) (ops : List Tok) {out' : List Expr} {ops' : List Tok},
      (∀ t ∈ ts,
        (∃ s, t = Tok.num s ∧ s ≠ [] ∧ s.all Char.isDigit = true ∧ digitsVal s ≤ maxI64) ∨
        t = Tok.plus ∨ t = Tok.minus ∨ t = Tok.star ∨ t = Tok.slash ∨
        t = Tok.lparen ∨ t = Tok.rparen) →
      (∀ e ∈ out, hasVar e = false) →
      runToks (out, ops) ts = .ok (out', ops') →
      ∀ e ∈ out', hasVar e = false := by
  intro ts
  induction ts with
  | nil =>
    intro out ops out' ops' _ hnv h
    simp only [runToks, Except.ok.injEq, Prod.mk.injEq] at h
    rw [← h.1]
    exact hnv
  | cons t ts ih =>
    intro out ops out' ops' hgood hnv h
    have hrest := fun u hu => hgood u (List.mem_cons_of_mem t hu)
    rcases hgood t (List.mem_cons_self t ts) with ⟨s, rfl, hs1, hs2, hs3⟩ |
      rfl | rfl | rfl | rfl | rfl | rfl
    · rw [runToks] at h
      refine ih _ ops hrest ?_ h
      intro e he
      rcases List.mem_cons.mp he with rfl | he'
      · exact operandExpr_noVar hs1 hs2 hs3
      · exact hnv e he'
    · rw [runToks] at h
      cases hp : popGE (precedence Tok.plus) out ops with
      | error e =>
        simp only [step, hp] at h
        exact Except.noConfusion h
      | ok st1 =>
        obtain ⟨out1, ops1⟩ := st1
        simp only [step, hp] at h
        exact ih out1 (Tok.plus :: ops1) hrest (popGE_noVar _ _ _ hp hnv) h
    · rw [runToks] at h
      cases hp : popGE (precedence Tok.minus) out ops with
      | error e =>
        simp only [step, hp] at h
        exact Except.noConfusion h
      | ok st1 =>
        obtain ⟨out1, ops1⟩ := st1
        simp only [step, hp] at h
        exact ih out1 (Tok.minus :: ops1) hrest (popGE_noVar _ _ _ hp hnv) h
    · rw [runToks] at h
      cases hp : popGE (precedence Tok.star) out ops with
      | error e =>
        simp only [step, hp] at h
        exact Except.noConfusion h
      | ok st1 =>
        obtain ⟨out1, ops1⟩ := st1
        simp only [step, hp] at h
        exact ih out1 (Tok.star :: ops1) hrest (popGE_noVar _ _ _ hp hnv) h
    · rw [runToks] at h
      cases hp : popGE (precedence Tok.slash) out ops with
      | error e =>
        simp only [step, hp] at h
        exact Except.noConfusion h
      | ok st1 =>
        obtain ⟨out1, ops1⟩ := st1
        simp only [step, hp] at h
        exact ih out1 (Tok.slash :: ops1) hrest (popGE_noVar _ _ _ hp hnv) h
    · rw [runToks] at h
      exact ih out (Tok.lparen :: ops) hrest hnv h
    · rw [runToks] at h
      cases hp : popToParen out ops with
      | error e =>
        simp only [step, hp] at h
        exact Except.noConfusion h
      | ok st1 =>
        obtain ⟨out1, ops1⟩ := st1
        simp only [step, hp] at h
        cases ops1 with
        | nil => exact Except.noConfusion h
        | cons t1 rest =>
          cases t1 with
          | lparen => exact ih out1 rest hrest (popToParen_noVar _ _ hp hnv) h
          | num s => exact Except.noConfusion h
          | ident s => exact Except.noConfusion h
          | plus => exact Except.noConfusion h
          | minus => exact Except.noConfusion h
          | star => exact Except.noConfusion h
          | slash => exact Except.noConfusion h
          | rparen => exact Except.noConfusion h

theorem parseToks_ok_inv {ts : List Tok} {e : Expr} (h : parseToks ts = .ok e) :
    ∃ out ops, runToks ([], []) ts = .ok (out, ops) ∧ drain out ops = .ok [e] := by
  unfold parseToks at h
  split at h
  · exact Except.noConfusion h
  · next out ops heq =>
    split at h
    · exact Except.noConfusion h
    · next x heq2 =>
      simp only [Except.ok.injEq] at h
      subst h
      exact ⟨out, ops, heq, heq2⟩
    · exact Except.noConfusion h

/-- C10 (amended): for every input line all of whose digit-run tokens
denote values that fit in `i64`, a successfully parsed tree contains no
`Variable` node (the regex alphabet yields only numeric and
operator/parenthesis tokens, and in-range numeric tokens always pass the
parse guard, so the `Variable` fallback is not taken). -/
theorem c10_no_variable_when_fits (input : String) (e : Expr)
    (hfits : (tokenize input.toList).all numFits = true)
    (h : parse_expression input = .ok e) : hasVar e = false := by
  obtain ⟨out, ops, hr, hd⟩ := parseToks_ok_inv h
  have hgood : ∀ t ∈ tokenize input.toList,
      (∃ s, t = Tok.num s ∧ s ≠ [] ∧ s.all Char.isDigit = true ∧ digitsVal s ≤ maxI64) ∨
      t = Tok.plus ∨ t = Tok.minus ∨ t = Tok.star ∨ t = Tok.slash ∨
      t = Tok.lparen ∨ t = Tok.rparen := by
    intro t ht
    rcases tokenize_shape input.toList.length input.toList le_rfl t ht with
      ⟨s, rfl, hs1, hs2⟩ | hrest
    · left
      refine ⟨s, rfl, hs1, hs2, ?_⟩
      have hfit := List.all_eq_true.mp hfits _ ht
      simpa [numFits] using hfit
    · exact Or.inr hrest
  have hout : ∀ x ∈ out, hasVar x = false :=
    runToks_noVar (tokenize input.toList) [] [] hgood (by intro x hx; cases hx) hr
  have hres := drain_noVar ops out hd hout
  exact hres e (List.mem_cons_self e [])

/-- C10 counterexample: the 20-digit run `"99999999999999999999"` exceeds
`i64::MAX`, both numeric-parse guards fail, and the fall-through arm
pushes an `Expr::Variable` — the parsed tree IS a Variable node, so the
claim "the tree contains no Variable node for every input" is false. -/
theorem c10_counterexample :
    parse_expression "99999999999999999999" = .ok (.Variable "99999999999999999999") ∧
    hasVar (.Variable "99999999999999999999") = true := by
  constructor
  · decide
  · rfl

/-- C10 witness: the amended theorem applied to the in-range line
`"1 + 2"`. -/
theorem c10_witness : hasVar (.Add (.Number 1) (.Number 2)) = false :=
  c10_no_variable_when_fits "1 + 2" (.Add (.Number 1) (.Number 2)) (by decide) (by decide)

/-! ## Concrete divergences of the code from the spec (claims C5, C6, C7, C9) -/

/-- C5: the tokenizer regex `(\d+|\+|\-|\*|\/|\(|\))` has no
word-character alternative: the identifier line `"x"` yields NO token (the
character is silently skipped like whitespace), whereas the spec §4.1
tokenizer contract produces the word-run token `x`; on `"x + 1"` the code
keeps only the `+` and `1` tokens. -/
theorem c5_tokenizer_drops_identifiers :
    tokenize (String.toList "x") = [] ∧
    tokenize_spec (String.toList "x") = [Tok.ident ['x']] ∧
    tokenize (String.toList "x + 1") = [Tok.plus, Tok.num ['1']] ∧
    tokenize_spec (String.toList "x + 1") = [Tok.ident ['x'], Tok.plus, Tok.num ['1']] := by
  refine ⟨?_, ?_, ?_, ?_⟩ <;> decide

/-- C6: processing `"var x = 5"` followed by `"x + 1"` does not evaluate
the second line to 6: the declaration line parses and registers `x = 5` in
the variable mapping, but parsing the second line panics with
InvalidExpression — the tokenizer drops the identifier `x`, leaving the
`+` of `"x + 1"` with a single operand. -/
theorem c6_var_then_use_panics :
    parse_program ["var x = 5"] =
      .ok ⟨[("x", 5)], [Stmt.Declaration ⟨"x", .Number 5⟩]⟩ ∧
    parse_program ["var x = 5", "x + 1"] = .error .invalidExpr := by
  constructor
  · decide
  · decide

/-- C7: the assignment regex's second capture group, `(\d+|[\w\s\+\-\*/\(\)])`,
matches a digit run or a SINGLE class character — not the whole right-hand
side: the line `"y = 2 + 3"` records `Assignment y (Number 2)`, the
expression-parse of just `"2"`, not the parse of `"2 + 3"` (which is
`Add 2 3`); the variable mapping is indeed not updated at parse time. -/
theorem c7_assignment_rhs_truncated :
    parse_program ["y = 2 + 3"] = .ok ⟨[], [Stmt.Assignment "y" (.Number 2)]⟩ ∧
    parse_expression "2 + 3" = .ok (.Add (.Number 2) (.Number 3)) := by
  constructor
  · decide
  · decide

/-- C9: round-tripping through the (spec-modelled) code generator fails
for a uniform-precedence tree with a Variable leaf: `Add (Variable "x")
(Number 1)` renders to `"x + 1"`, but re-tokenizing and re-parsing that
text with the code's parser fails with InvalidExpression because the
tokenizer drops the identifier.  An all-Number uniform-precedence tree
does re-parse, to the value-equivalent left-associated tree. -/
theorem c9_roundtrip_fails_variable :
    generate_code (.Add (.Variable "x") (.Number 1)) = "x + 1" ∧
    parse_expression (generate_code (.Add (.Variable "x") (.Number 1))) =
      .error .invalidExpr ∧
    parse_expression (generate_code (.Add (.Number 1) (.Add (.Number 2) (.Number 3)))) =
      .ok (.Add (.Add (.Number 1) (.Number 2)) (.Number 3)) ∧
    evaluate_expr (.Add (.Number 1) (.Add (.Number 2) (.Number 3))) [] = .ok 6 ∧
    evaluate_expr (.Add (.Add (.Number 1) (.Number 2)) (.Number 3)) [] = .ok 6 := by
  refine ⟨?_, ?_, ?_, ?_, ?_⟩ <;> decide

end JsParser
